import Mathlib

set_option maxRecDepth 16384

/-
Verification of the bild build tool (src/main.go).

The development embeds the pure logic of main.go:
the document codec used by whole-project editing (editEntireProject),
the single-phase edit parser (editProjectPhase), the phase runner
(runProject), the configuration loader (loadConfig) and the dump
operation (dumpProjectConfig).  Strings are Lean strings; Go maps are
association lists; the external world (filesystem, child processes,
JSON decoding) is passed in as explicit oracle arguments.
-/

/-- Phase mirrors the Go struct Phase (main.go lines 22-25): a named,
ordered list of shell command lines. -/
structure Phase where
  name : String
  commands : List String
deriving DecidableEq

/-- ProjectConfig mirrors the Go struct (main.go lines 28-30). -/
structure ProjectConfig where
  phases : List Phase
deriving DecidableEq

/-- Config mirrors the Go struct (main.go lines 33-35).  The Go map from
project name to ProjectConfig is modelled as an association list whose
keys are understood to be distinct; Go map iteration order is undefined,
which matters only for the local-config path where the source takes the
first element produced by range, singular in the intended use. -/
structure Config where
  projects : List (String × ProjectConfig)
deriving DecidableEq

/-- Go unicode.IsSpace, the predicate used by strings.TrimSpace: the
Unicode White_Space code points. -/
def goIsSpace (c : Char) : Bool :=
  c == ' ' || c == '\t' || c == '\n' || c == '\x0b' || c == '\x0c' || c == '\r' ||
  c == '\x85' || c == '\xa0' || c == '\u1680' ||
  (decide ('\u2000' ≤ c) && decide (c ≤ '\u200A')) || c == '\u2028' || c == '\u2029' ||
  c == '\u202F' || c == '\u205F' || c == '\u3000'

/-- Leading-whitespace removal on the character list, the first half of
Go strings.TrimSpace. -/
def trimLeftCs (cs : List Char) : List Char := cs.dropWhile goIsSpace

/-- Trailing-whitespace removal on the character list, the second half of
Go strings.TrimSpace. -/
def trimRightCs (cs : List Char) : List Char := (cs.reverse.dropWhile goIsSpace).reverse

/-- Go strings.TrimSpace. -/
def trimGo (s : String) : String := String.mk (trimRightCs (trimLeftCs s.data))

/-- Character-level computation behind Go strings.HasPrefix. -/
def isPrefixCs : List Char → List Char → Bool
  | [], _ => true
  | _ :: _, [] => false
  | p :: ps, x :: xs => if p = x then isPrefixCs ps xs else false

/-- Go strings.HasPrefix. -/
def hasPrefixGo (pre s : String) : Bool := isPrefixCs pre.data s.data

/-- Byte slicing trimmed[n:] of the Go source; on the call site the first
n bytes are the ASCII heading marker, so dropping n characters agrees
with dropping n bytes. -/
def dropStr (n : Nat) (s : String) : String := String.mk (s.data.drop n)

/-- One split of Go strings.Split(s, newline) at the character level:
the list of chunks between newline characters (always nonempty, with an
empty final chunk when the input ends in a newline). -/
def splitNl : List Char → List (List Char)
  | [] => [[]]
  | c :: cs =>
    if c = '\n' then [] :: splitNl cs
    else (c :: (splitNl cs).headD []) :: (splitNl cs).tail

/-- Go strings.Split(s, newline) as used by the two edit parsers
(main.go lines 199 and 564). -/
def splitLines (s : String) : List String := (splitNl s.data).map String.mk

/-- State of the line scanner of editEntireProject (main.go lines
194-198): the phase currently being built (its name), the command lines
collected for it, the inside-fence flag, and the phases finished so
far. -/
structure ParseSt where
  cur : Option String
  codeLines : List String
  inCode : Bool
  acc : List Phase
deriving DecidableEq

/-- The phase appended when a heading or the end of input closes the
current phase (main.go lines 213-216 and 242-245): nothing unless a
phase is open and has at least one collected command line. -/
def finalizePart (cur : Option String) (codeLines : List String) : List Phase :=
  match cur with
  | some nm => if codeLines = [] then [] else [⟨nm, codeLines⟩]
  | none => []

/-- One iteration of the line loop of editEntireProject (main.go lines
201-239), with the exact classification precedence of the source: skip
rule first (blank, project header, instruction text, list bullet), then
heading, then fence delimiter, then collection inside a fence. -/
def parseStep (st : ParseSt) (line : String) : ParseSt :=
  let trimmed := trimGo line
  if trimmed = "" ∨ hasPrefixGo "# Project:" trimmed = true ∨
     hasPrefixGo "Edit commands" trimmed = true ∨ hasPrefixGo "-" trimmed = true then
    st
  else if hasPrefixGo "## " trimmed = true then
    ⟨some (trimGo (dropStr 3 trimmed)), [], false,
      st.acc ++ finalizePart st.cur st.codeLines⟩
  else if trimmed = "```" ∨ trimmed = "```bash" then
    ⟨st.cur, st.codeLines, !st.inCode, st.acc⟩
  else if st.inCode = true ∧ st.cur.isSome = true ∧ trimmed ≠ "" then
    ⟨st.cur, st.codeLines ++ [trimmed], st.inCode, st.acc⟩
  else st

/-- The scanner state before the first line. -/
def initSt : ParseSt := ⟨none, [], false, []⟩

/-- End-of-input finalization (main.go lines 242-245). -/
def parseFinish (st : ParseSt) : List Phase := st.acc ++ finalizePart st.cur st.codeLines

/-- The whole parsing pass of editEntireProject over a list of lines. -/
def parseLines (lines : List String) : List Phase := parseFinish (lines.foldl parseStep initSt)

/-- Parse of the document protocol: split the edited document on
newlines and scan (main.go lines 194-245). -/
def parseEditedContent (s : String) : List Phase := parseLines (splitLines s)

/-- The newline join of a phase's commands in the serializer (main.go
lines 178-183): a separator between consecutive commands, none after
the last. -/
def joinNl : List String → String
  | [] => ""
  | [c] => c
  | c :: rest => c ++ "\n" ++ joinNl rest

/-- One phase block of the serialized document (main.go lines 175-185). -/
def serializePhase (ph : Phase) : String :=
  "## " ++ ph.name ++ "\n\n" ++ "```bash\n" ++ joinNl ph.commands ++ "\n```\n\n"

/-- The concatenation of all phase blocks in list order. -/
def serializePhases : List Phase → String
  | [] => ""
  | ph :: rest => serializePhase ph ++ serializePhases rest

/-- Serialize of the document protocol (main.go lines 162-185): title
line, fixed instruction block, then one block per phase in order. -/
def serializeProjectDoc (projectName : String) (proj : ProjectConfig) : String :=
  "# Project: " ++ projectName ++ "\n\n" ++
  "Edit commands for each phase below. Instructions:\n" ++
  "- Order of phases here determines execution order\n" ++
  "- Commands must be inside ``` blocks\n" ++
  "- Each phase must be a level 2 heading (##)\n\n" ++
  serializePhases proj.phases

/-- The per-phase script of runProject (main.go lines 402-411 and
435-441): the abort-on-first-error directive followed by each command
on its own line. -/
def buildScript (ph : Phase) : String :=
  ph.commands.foldl (fun acc c => acc ++ c ++ "\n") "set -e\n"

/-- Outcome of a run, with os.Exit(1) calls of the source modelled as
early-returned outcomes: success, a phase whose script exited non-zero
(main.go lines 419-422 and 449-452), a requested phase that does not
exist (lines 456-459), or a fatal resolution error (lines 370-393). -/
inductive RunOutcome where
  | success
  | phaseFailed (name : String)
  | phaseNotFound (name : String)
  | resolutionError (msg : String)
deriving DecidableEq

/-- The all-phases loop of runProject (main.go lines 397-425).  The
child process is an oracle from script text to exit success.  Returns
the names of the phases whose script was started, in order, and the
outcome. -/
def runAll : List Phase → (String → Bool) → List String × RunOutcome
  | [], _ => ([], .success)
  | ph :: rest, exec =>
    if exec (buildScript ph) = true then
      ((runAll rest exec).1.cons ph.name, (runAll rest exec).2)
    else ([ph.name], .phaseFailed ph.name)

/-- The specific-phase loop of runProject (main.go lines 427-459): scan
in list order, run the first phase whose name matches exactly, break;
report the requested name if the script fails or no phase matches. -/
def runSpecific : List Phase → String → (String → Bool) → List String × RunOutcome
  | [], target, _ => ([], .phaseNotFound target)
  | ph :: rest, target, exec =>
    if ph.name = target then
      if exec (buildScript ph) = true then ([ph.name], .success)
      else ([ph.name], .phaseFailed target)
    else runSpecific rest target exec

/-- Exact-key lookup in the projects map (Go config.Projects[projectName]). -/
def lookupProj : List (String × ProjectConfig) → String → Option ProjectConfig
  | [], _ => none
  | kv :: rest, n => if kv.1 = n then some kv.2 else lookupProj rest n

/-- The resolution step of runProject (main.go lines 368-394): a present
local config wins and contributes the first project its map range
yields (the zero-value ProjectConfig when the map is empty); otherwise
the caller-supplied name is required and looked up in the global
config. -/
def resolveProj (localCfg : Option Config) (projectName : String) (globalCfg : Config) :
    Except String ProjectConfig :=
  match localCfg with
  | some lc =>
    match lc.projects with
    | [] => .ok ⟨[]⟩
    | kv :: _ => .ok kv.2
  | none =>
    if projectName = "" then .error "project name required when no local config exists"
    else
      match lookupProj globalCfg.projects projectName with
      | some p => .ok p
      | none => .error ("project " ++ projectName ++ " not found")

/-- runProject (main.go lines 354-461) after the working-directory step:
resolve the effective project, then run either all phases or the single
requested phase. -/
def runProject (projectName phaseName : String) (localCfg : Option Config)
    (globalCfg : Config) (exec : String → Bool) : List String × RunOutcome :=
  match resolveProj localCfg projectName globalCfg with
  | .error e => ([], .resolutionError e)
  | .ok proj =>
    if phaseName = "" then runAll proj.phases exec
    else runSpecific proj.phases phaseName exec

/-- The line filter of editProjectPhase (main.go lines 563-570): keep
the trimmed form of every line that is nonblank and does not start with
a hash character. -/
def parsePhaseEditLines (content : String) : List String :=
  (splitLines content).foldl
    (fun acc line =>
      let trimmed := trimGo line
      if trimmed = "" ∨ hasPrefixGo "#" trimmed = true then acc else acc ++ [trimmed])
    []

/-- Replace the commands of the first phase with the given name
(main.go lines 531-537 with the write-back at 571). -/
def setFirstPhase : List Phase → String → List String → List Phase
  | [], _, _ => []
  | ph :: rest, nm, cmds =>
    if ph.name = nm then ⟨ph.name, cmds⟩ :: rest else ph :: setFirstPhase rest nm cmds

/-- The net effect of editProjectPhase (main.go lines 524-581) on the
project: if a phase with the name exists, its commands become the
parsed edit; otherwise a phase with the name and the parsed commands is
appended (the source appends an empty phase before editing and then
overwrites its commands). -/
def editProjectPhaseUpdate (proj : ProjectConfig) (phaseName : String) (edited : String) :
    ProjectConfig :=
  let newCommands := parsePhaseEditLines edited
  if proj.phases.any (fun ph => ph.name == phaseName) then
    ⟨setFirstPhase proj.phases phaseName newCommands⟩
  else ⟨proj.phases ++ [⟨phaseName, newCommands⟩]⟩

/-- Shape of the JSON values produced by encoding/json on the structs of
main.go, keeping field order and nesting (text formatting elided). -/
inductive Json where
  | str (s : String)
  | arr (xs : List Json)
  | obj (fields : List (String × Json))

/-- Encoding of Phase per its struct tags (main.go lines 22-25). -/
def encPhase (ph : Phase) : Json :=
  .obj [("name", .str ph.name), ("commands", .arr (ph.commands.map Json.str))]

/-- Encoding of ProjectConfig per its struct tag (main.go lines 28-30). -/
def encProjectConfig (p : ProjectConfig) : Json :=
  .obj [("phases", .arr (p.phases.map encPhase))]

/-- Encoding of the global Config per its struct tag (main.go lines
33-35): everything sits under the projects key. -/
def encConfig (c : Config) : Json :=
  .obj [("projects", .obj (c.projects.map (fun kv => (kv.1, encProjectConfig kv.2))))]

/-- The keys of a top-level JSON object. -/
def topKeys : Json → List String
  | .obj fields => fields.map (fun f => f.1)
  | _ => []

/-- The JSON value written by dumpProjectConfig (main.go lines 264-299):
a single-entry object mapping the project name to its configuration,
or the not-found error when the project is missing. -/
def dumpLocalJson (projectName : String) (config : Config) : Except String Json :=
  match lookupProj config.projects projectName with
  | none => .error ("project " ++ projectName ++ " not found")
  | some proj => .ok (.obj [(projectName, encProjectConfig proj)])

/-- The observable states of the global configuration file as seen by
loadConfig: absent, present but unreadable, or readable with content. -/
inductive FileState where
  | absent
  | readError (msg : String)
  | content (data : String)

/-- loadConfig (main.go lines 64-86) over a filesystem oracle and a
JSON-decoding oracle (json.Unmarshal into the config pre-initialized
with an empty projects map): an absent file yields the empty Config,
a read failure propagates, and content is decoded. -/
def loadConfig (fs : FileState) (unmarshal : String → Except String Config) :
    Except String Config :=
  match fs with
  | .absent => .ok ⟨[]⟩
  | .readError msg => .error msg
  | .content data => unmarshal data

/-- A phase name that serializes to a heading line the scanner parses
back unchanged: nonempty, TrimSpace-invariant, and newline-free. -/
def cleanName (s : String) : Prop :=
  trimGo s = s ∧ s ≠ "" ∧ '\n' ∉ s.data

instance (s : String) : Decidable (cleanName s) := by
  unfold cleanName; infer_instance

/-- A command line that survives the document round-trip unchanged:
newline-free, TrimSpace-invariant, nonblank, not matching any of the
scanner's skip rules, heading marker, or fence markers. -/
def cleanCmd (c : String) : Prop :=
  trimGo c = c ∧ c ≠ "" ∧ '\n' ∉ c.data ∧
  hasPrefixGo "# Project:" c = false ∧ hasPrefixGo "Edit commands" c = false ∧
  hasPrefixGo "-" c = false ∧ hasPrefixGo "## " c = false ∧
  c ≠ "```" ∧ c ≠ "```bash"

instance (c : String) : Decidable (cleanCmd c) := by
  unfold cleanCmd; infer_instance

/-- A phase whose serialized block parses back to exactly itself: a
clean name, at least one command, and all commands clean. -/
def cleanPhase (ph : Phase) : Prop :=
  cleanName ph.name ∧ ph.commands ≠ [] ∧ ∀ c ∈ ph.commands, cleanCmd c

instance (ph : Phase) : Decidable (cleanPhase ph) := by
  unfold cleanPhase; infer_instance

/-- The properties every collected command line enjoys by construction
of the scanner's classification precedence: it is nonblank and matches
none of the skip rules, the heading marker, or the two recognized fence
markers. -/
def collectedOk (c : String) : Prop :=
  c ≠ "" ∧ hasPrefixGo "# Project:" c = false ∧ hasPrefixGo "Edit commands" c = false ∧
  hasPrefixGo "-" c = false ∧ hasPrefixGo "## " c = false ∧ c ≠ "```" ∧ c ≠ "```bash"

/-- The lines of one serialized phase block. -/
def blockLines (ph : Phase) : List String :=
  ["## " ++ ph.name, "", "```bash"] ++ ph.commands ++ ["```", ""]

/-- The lines of the serialized phase blocks in order. -/
def linesOfPhases : List Phase → List String
  | [] => []
  | ph :: rest => blockLines ph ++ linesOfPhases rest

/-- The lines of the serialized title and instruction block. -/
def headerLines (projectName : String) : List String :=
  ["# Project: " ++ projectName, "",
   "Edit commands for each phase below. Instructions:",
   "- Order of phases here determines execution order",
   "- Commands must be inside ``` blocks",
   "- Each phase must be a level 2 heading (##)", ""]

theorem strExt {a b : String} (h : a.data = b.data) : a = b := by
  cases a; cases b; exact congrArg String.mk h

theorem mkData (s : String) : String.mk s.data = s := rfl

theorem splitNl_ne_nil : ∀ cs : List Char, splitNl cs ≠ []
  | [] => by simp [splitNl]
  | c :: cs => by
    by_cases h : c = '\n' <;> simp [splitNl, h]

theorem splitNl_sep (cs : List Char) : splitNl ('\n' :: cs) = [] :: splitNl cs := by
  simp [splitNl]

theorem splitNl_line : ∀ (a cs : List Char), '\n' ∉ a →
    splitNl (a ++ '\n' :: cs) = a :: splitNl cs
  | [], cs, _ => by simpa using splitNl_sep cs
  | c :: a, cs, h => by
    have hc : c ≠ '\n' := fun hh => h (hh ▸ List.mem_cons_self c a)
    have ha : '\n' ∉ a := fun hh => h (List.mem_cons_of_mem c hh)
    have ih := splitNl_line a cs ha
    simp [splitNl, hc, ih]

theorem isPrefixCs_append_self : ∀ (p y : List Char), isPrefixCs p (p ++ y) = true
  | [], _ => rfl
  | c :: p, y => by simp [isPrefixCs, isPrefixCs_append_self p y]

theorem length_dropWhile_le' (p : Char → Bool) (l : List Char) :
    (l.dropWhile p).length ≤ l.length := by
  induction l with
  | nil => simp
  | cons c cs ih =>
    by_cases h : p c
    · simp only [List.dropWhile_cons, if_pos h, List.length_cons]
      omega
    · simp [List.dropWhile_cons, h]

theorem dropWhile_eq_self_of_length (p : Char → Bool) (l : List Char)
    (h : (l.dropWhile p).length = l.length) : l.dropWhile p = l := by
  cases l with
  | nil => rfl
  | cons c cs =>
    by_cases hc : p c
    · rw [List.dropWhile_cons, if_pos hc] at h ⊢
      have := length_dropWhile_le' p cs
      simp at h
      omega
    · rw [List.dropWhile_cons, if_neg hc]

theorem trimRightCs_length_le (l : List Char) : (trimRightCs l).length ≤ l.length := by
  have := length_dropWhile_le' goIsSpace l.reverse
  simpa [trimRightCs] using this

theorem trimGo_parts {s : String} (h : trimGo s = s) :
    trimLeftCs s.data = s.data ∧ trimRightCs s.data = s.data := by
  have h' : trimRightCs (trimLeftCs s.data) = s.data := congrArg String.data h
  have l1 : (trimLeftCs s.data).length ≤ s.data.length := length_dropWhile_le' _ _
  have l3 : (trimRightCs (trimLeftCs s.data)).length ≤ (trimLeftCs s.data).length :=
    trimRightCs_length_le _
  rw [h'] at l3
  have hleft : trimLeftCs s.data = s.data :=
    dropWhile_eq_self_of_length _ _ (Nat.le_antisymm l1 l3)
  rw [hleft] at h'
  exact ⟨hleft, h'⟩

theorem trimRightCs_append (a b : List Char) :
    trimRightCs (a ++ b) = if trimRightCs b = [] then trimRightCs a else a ++ trimRightCs b := by
  unfold trimRightCs
  rw [List.reverse_append, List.dropWhile_append]
  by_cases hb : b.reverse.dropWhile goIsSpace = []
  · simp [hb]
  · have : (b.reverse.dropWhile goIsSpace).isEmpty = false := by
      simpa [List.isEmpty_iff] using hb
    simp [this, hb, List.reverse_append]

theorem isPrefixCs_cons_cons (p x : Char) (ps xs : List Char) :
    isPrefixCs (p :: ps) (x :: xs) = if p = x then isPrefixCs ps xs else false := rfl

theorem data_ne_nil_of_ne_empty {s : String} (h : s ≠ "") : s.data ≠ [] := by
  intro hh
  exact h (strExt (by rw [hh]))

theorem parseStep_skip (st : ParseSt) (l : String)
    (h : trimGo l = "" ∨ hasPrefixGo "# Project:" (trimGo l) = true ∨
         hasPrefixGo "Edit commands" (trimGo l) = true ∨ hasPrefixGo "-" (trimGo l) = true) :
    parseStep st l = st := by
  simp only [parseStep]
  rw [if_pos h]

theorem trimGo_heading {nm : String} (h : cleanName nm) :
    trimGo ("## " ++ nm) = "## " ++ nm := by
  obtain ⟨htrim, hne, _⟩ := h
  have hdata : ("## " ++ nm).data = '#' :: '#' :: ' ' :: nm.data := by
    rw [String.data_append]; rfl
  have hparts := trimGo_parts htrim
  have hndne : nm.data ≠ [] := data_ne_nil_of_ne_empty hne
  have hsharp : goIsSpace '#' = false := by decide
  apply strExt
  show trimRightCs (trimLeftCs ("## " ++ nm).data) = ("## " ++ nm).data
  rw [hdata]
  rw [show trimLeftCs ('#' :: '#' :: ' ' :: nm.data) = '#' :: '#' :: ' ' :: nm.data by
    simp [trimLeftCs, List.dropWhile_cons, hsharp]]
  rw [show ('#' :: '#' :: ' ' :: nm.data) = ['#', '#', ' '] ++ nm.data from rfl]
  rw [trimRightCs_append, hparts.2, if_neg hndne]

theorem heading_data (nm : String) : ("## " ++ nm).data = '#' :: '#' :: ' ' :: nm.data := by
  rw [String.data_append]; rfl

theorem heading_not_empty (nm : String) : ("## " ++ nm) ≠ "" := by
  intro hh
  have := congrArg String.data hh
  rw [heading_data] at this
  simp at this

theorem heading_not_title (nm : String) :
    hasPrefixGo "# Project:" ("## " ++ nm) = false := by
  unfold hasPrefixGo
  rw [heading_data]
  rw [show ("# Project:" : String).data = '#' :: ' ' :: "Project:".data from rfl]
  rw [isPrefixCs_cons_cons, if_pos rfl, isPrefixCs_cons_cons, if_neg (by decide)]

theorem heading_not_instr (nm : String) :
    hasPrefixGo "Edit commands" ("## " ++ nm) = false := by
  unfold hasPrefixGo
  rw [heading_data]
  rw [show ("Edit commands" : String).data = 'E' :: "dit commands".data from rfl]
  rw [isPrefixCs_cons_cons, if_neg (by decide)]

theorem heading_not_bullet (nm : String) :
    hasPrefixGo "-" ("## " ++ nm) = false := by
  unfold hasPrefixGo
  rw [heading_data]
  rw [show ("-" : String).data = '-' :: [] from rfl]
  rw [isPrefixCs_cons_cons, if_neg (by decide)]

theorem heading_has_marker (nm : String) :
    hasPrefixGo "## " ("## " ++ nm) = true := by
  unfold hasPrefixGo
  rw [heading_data]
  rw [show ("## " : String).data = '#' :: '#' :: ' ' :: [] from rfl]
  rw [isPrefixCs_cons_cons, if_pos rfl, isPrefixCs_cons_cons, if_pos rfl,
    isPrefixCs_cons_cons, if_pos rfl]
  rfl

theorem parseStep_heading (st : ParseSt) (nm : String) (h : cleanName nm) :
    parseStep st ("## " ++ nm) =
      ⟨some nm, [], false, st.acc ++ finalizePart st.cur st.codeLines⟩ := by
  have htrimline := trimGo_heading h
  have hdrop : dropStr 3 ("## " ++ nm) = nm := by
    unfold dropStr
    rw [heading_data]
    exact mkData nm
  simp only [parseStep, htrimline]
  rw [if_neg (by
    simp [heading_not_empty nm, heading_not_title nm, heading_not_instr nm,
      heading_not_bullet nm])]
  rw [if_pos (heading_has_marker nm)]
  rw [hdrop, h.1]

theorem parseStep_fence (st : ParseSt) (l : String)
    (h : trimGo l = "```" ∨ trimGo l = "```bash") :
    parseStep st l = ⟨st.cur, st.codeLines, !st.inCode, st.acc⟩ := by
  rcases h with h | h
  · simp only [parseStep, h]
    rw [if_neg (by decide), if_neg (by decide), if_pos (by decide)]
  · simp only [parseStep, h]
    rw [if_neg (by decide), if_neg (by decide), if_pos (by decide)]

theorem parseStep_collect (st : ParseSt) (c : String) (hic : st.inCode = true)
    (hcur : st.cur.isSome = true) (h : cleanCmd c) :
    parseStep st c = ⟨st.cur, st.codeLines ++ [c], st.inCode, st.acc⟩ := by
  obtain ⟨htrim, hne, _, h1, h2, h3, h4, h5, h6⟩ := h
  simp only [parseStep, htrim]
  rw [if_neg (by simp [hne, h1, h2, h3]), if_neg (by simp [h4]),
    if_neg (by simp [h5, h6]), if_pos ⟨hic, hcur, hne⟩]

theorem mk_data_append (a b : String) : String.mk (a.data ++ b.data) = a ++ b :=
  strExt (String.data_append a b).symm

theorem map_mk_data (l : List String) : (l.map String.data).map String.mk = l := by
  induction l with
  | nil => rfl
  | cons a l ih => simp [ih, mkData]

theorem splitNl_joinNl : ∀ (cmds : List String), (∀ c ∈ cmds, '\n' ∉ c.data) →
    cmds ≠ [] → ∀ rest : List Char,
    splitNl ((joinNl cmds).data ++ '\n' :: rest) = cmds.map String.data ++ splitNl rest := by
  intro cmds
  induction cmds with
  | nil => intro _ h; exact absurd rfl h
  | cons c ds ih =>
    intro hnl _ rest
    cases ds with
    | nil =>
      show splitNl (c.data ++ '\n' :: rest) = [c.data] ++ splitNl rest
      rw [splitNl_line c.data rest (hnl c (by simp))]
      rfl
    | cons d ds2 =>
      have hjoin : joinNl (c :: d :: ds2) = c ++ "\n" ++ joinNl (d :: ds2) := rfl
      have hdata : (joinNl (c :: d :: ds2)).data ++ '\n' :: rest
          = c.data ++ '\n' :: ((joinNl (d :: ds2)).data ++ '\n' :: rest) := by
        rw [hjoin, String.data_append, String.data_append]
        simp
      rw [hdata, splitNl_line c.data _ (hnl c (by simp))]
      rw [ih (fun x hx => hnl x (List.mem_cons_of_mem c hx)) (by simp) rest]
      rfl

theorem splitNl_block (ph : Phase) (restD : List Char) (h : cleanPhase ph) :
    splitNl ((serializePhase ph).data ++ restD) =
      (blockLines ph).map String.data ++ splitNl restD := by
  obtain ⟨⟨hnmtrim, hnmne, hnmnl⟩, hcne, hccmds⟩ := h
  have hcnl : ∀ c ∈ ph.commands, '\n' ∉ c.data := fun c hc => (hccmds c hc).2.2.1
  have hl1 : ("\n\n" : String).data = ['\n', '\n'] := rfl
  have hl2 : ("```bash\n" : String).data = "```bash".data ++ ['\n'] := rfl
  have hl3 : ("\n```\n\n" : String).data = '\n' :: ("```".data ++ ['\n', '\n']) := rfl
  have hshape : (serializePhase ph).data ++ restD
      = ("## ".data ++ ph.name.data) ++ '\n' ::
        ('\n' :: ("```bash".data ++ '\n' ::
          ((joinNl ph.commands).data ++ '\n' ::
            ("```".data ++ '\n' :: '\n' :: restD)))) := by
    simp [serializePhase, String.data_append, hl1, hl2, hl3]
  have htitle : '\n' ∉ "## ".data ++ ph.name.data := by
    intro hm
    rcases List.mem_append.mp hm with hm | hm
    · revert hm; decide
    · exact hnmnl hm
  rw [hshape, splitNl_line _ _ htitle, splitNl_sep,
    splitNl_line "```bash".data _ (by decide),
    splitNl_joinNl ph.commands hcnl hcne,
    splitNl_line "```".data _ (by decide), splitNl_sep]
  simp [blockLines, String.data_append]

theorem splitNl_phases : ∀ (phs : List Phase), (∀ ph ∈ phs, cleanPhase ph) →
    splitNl (serializePhases phs).data = (linesOfPhases phs).map String.data ++ [[]] := by
  intro phs
  induction phs with
  | nil => intro _; rfl
  | cons ph rest ih =>
    intro h
    have hd : (serializePhases (ph :: rest)).data
        = (serializePhase ph).data ++ (serializePhases rest).data := by
      show (serializePhase ph ++ serializePhases rest).data = _
      rw [String.data_append]
    rw [hd, splitNl_block ph _ (h ph (by simp)), ih (fun q hq => h q (List.mem_cons_of_mem ph hq))]
    simp [linesOfPhases]

theorem splitLines_serialize (n : String) (p : ProjectConfig) (hn : '\n' ∉ n.data)
    (h : ∀ ph ∈ p.phases, cleanPhase ph) :
    splitLines (serializeProjectDoc n p) = headerLines n ++ linesOfPhases p.phases ++ [""] := by
  have hl1 : ("\n\n" : String).data = ['\n', '\n'] := rfl
  have hi1 : ("Edit commands for each phase below. Instructions:\n" : String).data
      = "Edit commands for each phase below. Instructions:".data ++ ['\n'] := rfl
  have hi2 : ("- Order of phases here determines execution order\n" : String).data
      = "- Order of phases here determines execution order".data ++ ['\n'] := rfl
  have hi3 : ("- Commands must be inside ``` blocks\n" : String).data
      = "- Commands must be inside ``` blocks".data ++ ['\n'] := rfl
  have hi4 : ("- Each phase must be a level 2 heading (##)\n\n" : String).data
      = "- Each phase must be a level 2 heading (##)".data ++ ['\n', '\n'] := rfl
  have hshape : (serializeProjectDoc n p).data
      = ("# Project: ".data ++ n.data) ++ '\n' ::
        ('\n' :: ("Edit commands for each phase below. Instructions:".data ++ '\n' ::
          ("- Order of phases here determines execution order".data ++ '\n' ::
            ("- Commands must be inside ``` blocks".data ++ '\n' ::
              ("- Each phase must be a level 2 heading (##)".data ++ '\n' ::
                ('\n' :: (serializePhases p.phases).data)))))) := by
    simp [serializeProjectDoc, String.data_append, hl1, hi1, hi2, hi3, hi4]
  have htitle : '\n' ∉ "# Project: ".data ++ n.data := by
    intro hm
    rcases List.mem_append.mp hm with hm | hm
    · revert hm; decide
    · exact hn hm
  unfold splitLines
  rw [hshape, splitNl_line _ _ htitle, splitNl_sep,
    splitNl_line "Edit commands for each phase below. Instructions:".data _ (by decide),
    splitNl_line "- Order of phases here determines execution order".data _ (by decide),
    splitNl_line "- Commands must be inside ``` blocks".data _ (by decide),
    splitNl_line "- Each phase must be a level 2 heading (##)".data _ (by decide),
    splitNl_sep, splitNl_phases p.phases h]
  rw [List.map_cons, List.map_cons, List.map_cons, List.map_cons, List.map_cons,
    List.map_cons, List.map_cons, List.map_append, map_mk_data, mk_data_append]
  simp only [mkData, show String.mk [] = "" from rfl, List.map_cons, List.map_nil]
  rfl

theorem parseStep_empty (st : ParseSt) : parseStep st "" = st :=
  parseStep_skip st "" (Or.inl (by decide))

theorem title_skip (st : ParseSt) (n : String) : parseStep st ("# Project: " ++ n) = st := by
  apply parseStep_skip
  right; left
  unfold hasPrefixGo trimGo
  have hd : ("# Project: " ++ n).data = '#' :: (" Project: ".data ++ n.data) := by
    rw [String.data_append]; rfl
  rw [hd]
  rw [show trimLeftCs ('#' :: (" Project: ".data ++ n.data))
      = '#' :: (" Project: ".data ++ n.data) from by
    simp [trimLeftCs, List.dropWhile_cons, show goIsSpace '#' = false from by decide]]
  rw [← List.cons_append, trimRightCs_append]
  by_cases hnd : trimRightCs n.data = []
  · rw [if_pos hnd]
    decide
  · rw [if_neg hnd]
    show isPrefixCs "# Project:".data (('#' :: " Project: ".data) ++ trimRightCs n.data) = true
    rw [show ('#' :: " Project: ".data) = "# Project:".data ++ [' '] from rfl,
      List.append_assoc]
    exact isPrefixCs_append_self _ _

theorem foldl_header (st : ParseSt) (n : String) :
    List.foldl parseStep st (headerLines n) = st := by
  simp only [headerLines, List.foldl_cons, List.foldl_nil]
  rw [title_skip, parseStep_empty,
    parseStep_skip _ "Edit commands for each phase below. Instructions:"
      (Or.inr (Or.inr (Or.inl (by decide)))),
    parseStep_skip _ "- Order of phases here determines execution order"
      (Or.inr (Or.inr (Or.inr (by decide)))),
    parseStep_skip _ "- Commands must be inside ``` blocks"
      (Or.inr (Or.inr (Or.inr (by decide)))),
    parseStep_skip _ "- Each phase must be a level 2 heading (##)"
      (Or.inr (Or.inr (Or.inr (by decide)))),
    parseStep_empty]

theorem parseStep_collect' (nm : String) (cl : List String) (acc : List Phase) (c : String)
    (h : cleanCmd c) :
    parseStep ⟨some nm, cl, true, acc⟩ c = ⟨some nm, cl ++ [c], true, acc⟩ :=
  parseStep_collect _ c rfl rfl h

theorem parseStep_fence_open (nm : String) (cl : List String) (acc : List Phase) (l : String)
    (h : trimGo l = "```" ∨ trimGo l = "```bash") :
    parseStep ⟨some nm, cl, false, acc⟩ l = ⟨some nm, cl, true, acc⟩ :=
  parseStep_fence _ l h

theorem parseStep_fence_close (nm : String) (cl : List String) (acc : List Phase) (l : String)
    (h : trimGo l = "```" ∨ trimGo l = "```bash") :
    parseStep ⟨some nm, cl, true, acc⟩ l = ⟨some nm, cl, false, acc⟩ :=
  parseStep_fence _ l h

theorem parseStep_heading' (cur : Option String) (cl : List String) (ic : Bool)
    (acc : List Phase) (nm : String) (h : cleanName nm) :
    parseStep ⟨cur, cl, ic, acc⟩ ("## " ++ nm) = ⟨some nm, [], false, acc ++ finalizePart cur cl⟩ :=
  parseStep_heading _ nm h

theorem foldl_collect : ∀ (cmds : List String), (∀ c ∈ cmds, cleanCmd c) →
    ∀ (nm : String) (cl : List String) (acc : List Phase),
    List.foldl parseStep ⟨some nm, cl, true, acc⟩ cmds = ⟨some nm, cl ++ cmds, true, acc⟩ := by
  intro cmds
  induction cmds with
  | nil => intro _ nm cl acc; simp
  | cons c cs ih =>
    intro h nm cl acc
    rw [List.foldl_cons, parseStep_collect' nm cl acc c (h c (by simp)),
      ih (fun x hx => h x (List.mem_cons_of_mem c hx))]
    simp

theorem foldl_blocks : ∀ (phs : List Phase), (∀ ph ∈ phs, cleanPhase ph) →
    ∀ (cur : Option String) (cl : List String) (ic : Bool) (acc : List Phase),
    parseFinish (List.foldl parseStep ⟨cur, cl, ic, acc⟩ (linesOfPhases phs ++ [""])) =
      acc ++ finalizePart cur cl ++ phs := by
  intro phs
  induction phs with
  | nil =>
    intro _ cur cl ic acc
    show parseFinish (List.foldl parseStep _ [""]) = _
    rw [List.foldl_cons, parseStep_empty, List.foldl_nil]
    simp [parseFinish]
  | cons ph rest ih =>
    intro h cur cl ic acc
    obtain ⟨hnm, hcne, hcc⟩ := h ph (by simp)
    have hlines : linesOfPhases (ph :: rest) ++ [""]
        = ("## " ++ ph.name) :: "" :: "```bash" ::
          (ph.commands ++ ("```" :: "" :: (linesOfPhases rest ++ [""]))) := by
      simp [linesOfPhases, blockLines]
    rw [hlines, List.foldl_cons, parseStep_heading' cur cl ic acc ph.name hnm,
      List.foldl_cons, parseStep_empty,
      List.foldl_cons, parseStep_fence_open _ _ _ "```bash" (Or.inr (by decide)),
      List.foldl_append, foldl_collect ph.commands hcc _ _ _,
      List.foldl_cons, parseStep_fence_close _ _ _ "```" (Or.inl (by decide)),
      List.foldl_cons, parseStep_empty,
      show ([] : List String) ++ ph.commands = ph.commands from rfl,
      ih (fun q hq => h q (List.mem_cons_of_mem ph hq))]
    simp [finalizePart, hcne]

theorem finalizePart_inv (cur : Option String) (cl : List String)
    (h1 : ∀ c ∈ cl, collectedOk c) :
    ∀ ph ∈ finalizePart cur cl, ph.commands ≠ [] ∧ ∀ c ∈ ph.commands, collectedOk c := by
  intro ph hph
  cases cur with
  | none => simp [finalizePart] at hph
  | some nm =>
    by_cases hcl : cl = []
    · simp [finalizePart, hcl] at hph
    · simp [finalizePart, hcl] at hph
      subst hph
      exact ⟨hcl, h1⟩

theorem parseStep_inv (st : ParseSt) (l : String)
    (h1 : ∀ c ∈ st.codeLines, collectedOk c)
    (h2 : ∀ ph ∈ st.acc, ph.commands ≠ [] ∧ ∀ c ∈ ph.commands, collectedOk c) :
    (∀ c ∈ (parseStep st l).codeLines, collectedOk c) ∧
    (∀ ph ∈ (parseStep st l).acc, ph.commands ≠ [] ∧ ∀ c ∈ ph.commands, collectedOk c) := by
  unfold parseStep
  dsimp only
  split_ifs with g1 g2 g3 g4
  · exact ⟨h1, h2⟩
  · refine ⟨by simp, ?_⟩
    intro ph hph
    simp only [List.mem_append] at hph
    rcases hph with hph | hph
    · exact h2 ph hph
    · exact finalizePart_inv st.cur st.codeLines h1 ph hph
  · exact ⟨h1, h2⟩
  · push_neg at g1
    obtain ⟨gne, gp1, gp2, gp3⟩ := g1
    refine ⟨?_, h2⟩
    intro c hc
    simp only [List.mem_append, List.mem_singleton] at hc
    rcases hc with hc | hc
    · exact h1 c hc
    · subst hc
      refine ⟨gne, ?_, ?_, ?_, ?_, ?_, ?_⟩
      · simpa using gp1
      · simpa using gp2
      · simpa using gp3
      · simpa using g2
      · intro hh; exact g3 (Or.inl hh)
      · intro hh; exact g3 (Or.inr hh)
  · exact ⟨h1, h2⟩

theorem foldl_inv : ∀ (L : List String) (st : ParseSt),
    (∀ c ∈ st.codeLines, collectedOk c) →
    (∀ ph ∈ st.acc, ph.commands ≠ [] ∧ ∀ c ∈ ph.commands, collectedOk c) →
    (∀ c ∈ (List.foldl parseStep st L).codeLines, collectedOk c) ∧
    (∀ ph ∈ (List.foldl parseStep st L).acc,
      ph.commands ≠ [] ∧ ∀ c ∈ ph.commands, collectedOk c) := by
  intro L
  induction L with
  | nil => intro st h1 h2; exact ⟨h1, h2⟩
  | cons l ls ih =>
    intro st h1 h2
    have := parseStep_inv st l h1 h2
    exact ih (parseStep st l) this.1 this.2

theorem parseLines_inv (L : List String) :
    ∀ ph ∈ parseLines L, ph.commands ≠ [] ∧ ∀ c ∈ ph.commands, collectedOk c := by
  intro ph hph
  have hinv := foldl_inv L initSt (by simp [initSt]) (by simp [initSt])
  unfold parseLines parseFinish at hph
  simp only [List.mem_append] at hph
  rcases hph with hph | hph
  · exact hinv.2 ph hph
  · exact finalizePart_inv _ _ hinv.1 ph hph

theorem foldl_ws : ∀ (ws : List String),
    (∀ l ∈ ws, trimGo l = "" ∨ trimGo l = "```" ∨ trimGo l = "```bash") →
    ∀ (nm : String) (ic : Bool) (acc : List Phase),
    ∃ ic', List.foldl parseStep ⟨some nm, [], ic, acc⟩ ws = ⟨some nm, [], ic', acc⟩ := by
  intro ws
  induction ws with
  | nil => intro _ nm ic acc; exact ⟨ic, rfl⟩
  | cons l ls ih =>
    intro h nm ic acc
    have hl := h l (by simp)
    have hrest : ∀ x ∈ ls, trimGo x = "" ∨ trimGo x = "```" ∨ trimGo x = "```bash" :=
      fun x hx => h x (List.mem_cons_of_mem l hx)
    rcases hl with hl | hl
    · rw [List.foldl_cons, parseStep_skip _ l (Or.inl hl)]
      exact ih hrest nm ic acc
    · rw [List.foldl_cons, parseStep_fence _ l hl]
      exact ih hrest nm (!ic) acc

theorem strAppend_empty (s : String) : s ++ "" = s :=
  strExt (by rw [String.data_append]; exact List.append_nil _)

theorem strAppend_assoc (a b c : String) : a ++ b ++ c = a ++ (b ++ c) :=
  strExt (by
    rw [String.data_append, String.data_append, String.data_append, String.data_append,
      List.append_assoc])

theorem buildScript_aux : ∀ (cmds : List String) (s : String),
    ∃ t : String, cmds.foldl (fun acc c => acc ++ c ++ "\n") s = s ++ t := by
  intro cmds
  induction cmds with
  | nil => intro s; exact ⟨"", (strAppend_empty s).symm⟩
  | cons c l ih =>
    intro s
    obtain ⟨t, ht⟩ := ih (s ++ c ++ "\n")
    refine ⟨c ++ "\n" ++ t, ?_⟩
    rw [List.foldl_cons, ht, strAppend_assoc s c "\n", strAppend_assoc]

theorem buildScript_has_directive (ph : Phase) :
    hasPrefixGo "set -e\n" (buildScript ph) = true := by
  obtain ⟨t, ht⟩ := buildScript_aux ph.commands "set -e\n"
  unfold buildScript
  rw [ht]
  unfold hasPrefixGo
  rw [String.data_append]
  exact isPrefixCs_append_self _ _

theorem runAll_failfast : ∀ (pre : List Phase) (ph : Phase) (post : List Phase)
    (exec : String → Bool), (∀ q ∈ pre, exec (buildScript q) = true) →
    exec (buildScript ph) = false →
    runAll (pre ++ ph :: post) exec =
      (pre.map Phase.name ++ [ph.name], RunOutcome.phaseFailed ph.name) := by
  intro pre
  induction pre with
  | nil =>
    intro ph post exec _ hf
    simp [runAll, hf]
  | cons q pre ih =>
    intro ph post exec hok hf
    have hq : exec (buildScript q) = true := hok q (by simp)
    show runAll (q :: (pre ++ ph :: post)) exec = _
    simp only [runAll, hq, if_pos]
    rw [ih ph post exec (fun x hx => hok x (List.mem_cons_of_mem q hx)) hf]
    simp

theorem runSpecific_skips (target : String) (exec : String → Bool) :
    ∀ (pre : List Phase), (∀ r ∈ pre, r.name ≠ target) → ∀ (rest : List Phase),
    runSpecific (pre ++ rest) target exec = runSpecific rest target exec := by
  intro pre
  induction pre with
  | nil => intro _ rest; rfl
  | cons r pre ih =>
    intro h rest
    show runSpecific (r :: (pre ++ rest)) target exec = _
    simp only [runSpecific, if_neg (h r (by simp))]
    exact ih (fun x hx => h x (List.mem_cons_of_mem r hx)) rest

/-- C1 (amended): the document round-trip Parse(Serialize(name, cfg)) = cfg.phases
holds when the project name is newline-free and every phase has a nonempty,
TrimSpace-invariant, newline-free name and at least one command, each command
being nonempty, TrimSpace-invariant, newline-free, not starting with a hyphen,
the heading marker, or either instructional marker, and distinct from both
recognized fence markers.  The original hypotheses (no blank command lines, no
literal marker text) are not sufficient: the scanner also drops any line
starting with a hyphen or matching the title or instruction text, trims
whitespace, and elides phases left without commands. -/
theorem serialize_parse_roundtrip (n : String) (p : ProjectConfig)
    (hn : '\n' ∉ n.data) (h : ∀ ph ∈ p.phases, cleanPhase ph) :
    parseEditedContent (serializeProjectDoc n p) = p.phases := by
  unfold parseEditedContent parseLines
  rw [splitLines_serialize n p hn h, List.append_assoc, List.foldl_append, foldl_header]
  simpa [initSt, finalizePart] using foldl_blocks p.phases h none [] false []

/-- C1 counterexample: the phase build with the single command -j4 satisfies
the claim's stated hypotheses (its name has no newline, its command list has
no blank line and no line equal to a heading or fence marker), yet the
round-trip loses the command to the list-bullet skip rule and therefore drops
the whole phase. -/
theorem serialize_parse_roundtrip_cex :
    parseEditedContent (serializeProjectDoc "p" ⟨[⟨"build", ["-j4"]⟩]⟩) = [] ∧
    ([] : List Phase) ≠ [⟨"build", ["-j4"]⟩] :=
  ⟨by decide, by decide⟩

/-- Witness for C1: a concrete two-phase project round-trips. -/
theorem serialize_parse_roundtrip_witness :
    parseEditedContent (serializeProjectDoc "demo"
      ⟨[⟨"configure", ["cmake .."]⟩, ⟨"build", ["make"]⟩]⟩) =
      [⟨"configure", ["cmake .."]⟩, ⟨"build", ["make"]⟩] :=
  serialize_parse_roundtrip "demo" _ (by decide) (by decide)

/-- C2 (confirmed): when a parseable local configuration with a single
embedded project is present, runProject executes that project's phases,
never consulting the caller-supplied project name or the global
configuration, for both the all-phases and the specific-phase path. -/
theorem local_override_precedence (x : String) (pcfg : ProjectConfig) :
    (∀ (y z phn : String) (glob glob2 : Config) (exec : String → Bool),
      runProject y phn (some ⟨[(x, pcfg)]⟩) glob exec =
        runProject z phn (some ⟨[(x, pcfg)]⟩) glob2 exec) ∧
    (∀ (y : String) (glob : Config) (exec : String → Bool),
      runProject y "" (some ⟨[(x, pcfg)]⟩) glob exec = runAll pcfg.phases exec) ∧
    (∀ (y phn : String) (glob : Config) (exec : String → Bool), phn ≠ "" →
      runProject y phn (some ⟨[(x, pcfg)]⟩) glob exec =
        runSpecific pcfg.phases phn exec) := by
  refine ⟨fun y z phn glob glob2 exec => rfl, fun y glob exec => rfl, ?_⟩
  intro y phn glob exec hphn
  unfold runProject resolveProj
  simp [hphn]

/-- Witness for C2: with a local project loc present, running under a
different caller-supplied name executes the local phases. -/
theorem local_override_precedence_witness :
    runProject "other" "b" (some ⟨[("loc", ⟨[⟨"b", ["x"]⟩]⟩)]⟩) ⟨[]⟩ (fun _ => true) =
      runSpecific [⟨"b", ["x"]⟩] "b" (fun _ => true) :=
  (local_override_precedence "loc" ⟨[⟨"b", ["x"]⟩]⟩).2.2 "other" "b" ⟨[]⟩ (fun _ => true)
    (by decide)

/-- C3 (confirmed): every phase script starts with the abort-on-first-error
directive, and when the phases before some failing phase all succeed, the run
executes exactly the phases up to and including the failing one and stops
with the failing phase's name; no later phase is ever started. -/
theorem failfast_execution :
    (∀ ph : Phase, hasPrefixGo "set -e\n" (buildScript ph) = true) ∧
    (∀ (pre : List Phase) (ph : Phase) (post : List Phase) (exec : String → Bool),
      (∀ q ∈ pre, exec (buildScript q) = true) → exec (buildScript ph) = false →
      runAll (pre ++ ph :: post) exec =
        (pre.map Phase.name ++ [ph.name], RunOutcome.phaseFailed ph.name)) :=
  ⟨buildScript_has_directive, runAll_failfast⟩

/-- Witness for C3: with phase b's script failing, the run executes a then b
and stops, reporting b; c never runs. -/
theorem failfast_execution_witness :
    runAll [⟨"a", ["x"]⟩, ⟨"b", ["y"]⟩, ⟨"c", ["z"]⟩] (fun s => !(s == "set -e\ny\n")) =
      (["a", "b"], RunOutcome.phaseFailed "b") :=
  failfast_execution.2 [⟨"a", ["x"]⟩] ⟨"b", ["y"]⟩ [⟨"c", ["z"]⟩]
    (fun s => !(s == "set -e\ny\n")) (by decide) (by decide)

/-- C4 (amended): the whole-project edit parse never produces a phase with
zero commands, so that path cannot persist an empty phase; the single-phase
edit path, by contrast, does persist a phase whose edited content parses to
zero command lines (see the counterexample). -/
theorem parse_drops_empty_phases (s : String) :
    ∀ ph ∈ parseEditedContent s, ph.commands ≠ [] := by
  intro ph hph
  exact (parseLines_inv (splitLines s) ph hph).1

/-- C4 counterexample: editing phase build of an empty project with content
whose lines are all comments parses to zero commands, and the phase is
persisted with an empty command list rather than dropped. -/
theorem empty_phase_persisted_cex :
    editProjectPhaseUpdate ⟨[]⟩ "build" "# deleted\n" = ⟨[⟨"build", []⟩]⟩ ∧
    (⟨"build", []⟩ : Phase).commands = [] :=
  ⟨by decide, rfl⟩

/-- Witness for C4: a parsed phase of a concrete document has commands. -/
theorem parse_drops_empty_phases_witness : (["make"] : List String) ≠ [] :=
  parse_drops_empty_phases "## build\n```bash\nmake\n```" ⟨"build", ["make"]⟩ (by decide)

/-- C5 (amended): the scanner drops every line whose trimmed form starts
with a hyphen or with the literal markers of the title or instruction text,
so no collected command has any of these shapes; but a general line starting
with a hash character is not dropped (see the counterexample). -/
theorem bullet_lines_never_collected (s : String) :
    ∀ ph ∈ parseEditedContent s, ∀ c ∈ ph.commands,
      hasPrefixGo "-" c = false ∧ hasPrefixGo "# Project:" c = false ∧
      hasPrefixGo "Edit commands" c = false := by
  intro ph hph c hc
  have h := (parseLines_inv (splitLines s) ph hph).2 c hc
  exact ⟨h.2.2.2.1, h.2.1, h.2.2.1⟩

/-- C5 counterexample: a fence-content line starting with a hash character
is collected as a command, not dropped. -/
theorem hash_line_collected_cex :
    parseEditedContent "## build\n```bash\n# comment\necho hi\n```" =
      [⟨"build", ["# comment", "echo hi"]⟩] ∧
    hasPrefixGo "#" "# comment" = true :=
  ⟨by decide, by decide⟩

/-- Witness for C5: a collected command of a concrete document starts with
none of the dropped markers. -/
theorem bullet_lines_never_collected_witness :
    hasPrefixGo "-" "make" = false ∧ hasPrefixGo "# Project:" "make" = false ∧
    hasPrefixGo "Edit commands" "make" = false :=
  bullet_lines_never_collected "## b\n```bash\nmake\n```" ⟨"b", ["make"]⟩ (by decide)
    "make" (by decide)

/-- C6 (amended): the two recognized fence-delimiter forms, the bare marker
and the marker with the bash tag, are never collected as commands; a fence
line with any other language tag is not recognized as a delimiter and can be
collected as a command (see the counterexample). -/
theorem fence_marker_never_collected (s : String) :
    ∀ ph ∈ parseEditedContent s, ∀ c ∈ ph.commands, c ≠ "```" ∧ c ≠ "```bash" := by
  intro ph hph c hc
  have h := (parseLines_inv (splitLines s) ph hph).2 c hc
  exact ⟨h.2.2.2.2.2.1, h.2.2.2.2.2.2⟩

/-- C6 counterexample: a fence marker carrying the python tag does not
toggle the fence state and is itself collected as a command. -/
theorem fence_tag_collected_cex :
    parseEditedContent "## build\n```\n```python\necho hi\n```" =
      [⟨"build", ["```python", "echo hi"]⟩] ∧
    ("```python" : String) ≠ "```" :=
  ⟨by decide, by decide⟩

/-- Witness for C6: a collected command of a concrete document differs from
both recognized fence markers. -/
theorem fence_marker_never_collected_witness :
    ("ls" : String) ≠ "```" ∧ ("ls" : String) ≠ "```bash" :=
  fence_marker_never_collected "## b\n```bash\nls\n```" ⟨"b", ["ls"]⟩ (by decide)
    "ls" (by decide)

/-- C7 (confirmed): a heading followed by an empty or whitespace-only fenced
block contributes no phase to the parsed result, whether the block runs to
the end of input or up to the next heading. -/
theorem empty_phase_elision (doc₁ : List String) (name : String) (ws : List String)
    (nm' : String) (doc₂ : List String)
    (hws : ∀ l ∈ ws, trimGo l = "" ∨ trimGo l = "```" ∨ trimGo l = "```bash")
    (hn : cleanName name) (hn' : cleanName nm') :
    parseLines (doc₁ ++ ("## " ++ name) :: ws) = parseLines doc₁ ∧
    parseLines (doc₁ ++ ("## " ++ name) :: (ws ++ ("## " ++ nm') :: doc₂)) =
      parseLines (doc₁ ++ ("## " ++ nm') :: doc₂) := by
  constructor
  · unfold parseLines
    rw [List.foldl_append]
    generalize List.foldl parseStep initSt doc₁ = st
    obtain ⟨cur, cl, ic, acc⟩ := st
    rw [List.foldl_cons, parseStep_heading' cur cl ic acc name hn]
    obtain ⟨ic', hic'⟩ := foldl_ws ws hws name false (acc ++ finalizePart cur cl)
    rw [hic']
    simp [parseFinish, finalizePart]
  · unfold parseLines
    rw [List.foldl_append, List.foldl_append]
    generalize List.foldl parseStep initSt doc₁ = st
    obtain ⟨cur, cl, ic, acc⟩ := st
    rw [List.foldl_cons, parseStep_heading' cur cl ic acc name hn, List.foldl_append]
    obtain ⟨ic', hic'⟩ := foldl_ws ws hws name false (acc ++ finalizePart cur cl)
    rw [hic']
    rw [List.foldl_cons, parseStep_heading' (some name) [] ic' _ nm' hn']
    rw [List.foldl_cons, parseStep_heading' cur cl ic acc nm' hn']
    simp [finalizePart]

/-- Witness for C7: a concrete heading with a whitespace-only fenced block
adds nothing, both at end of input and before a following heading. -/
theorem empty_phase_elision_witness :
    parseLines (["## a", "```bash", "ls", "```"] ++ ("## " ++ "mt") ::
        ["```bash", "  ", "```"]) =
      parseLines ["## a", "```bash", "ls", "```"] ∧
    parseLines (["## a", "```bash", "ls", "```"] ++ ("## " ++ "mt") ::
        (["```bash", "  ", "```"] ++ ("## " ++ "b") :: ["```bash", "pwd", "```"])) =
      parseLines (["## a", "```bash", "ls", "```"] ++ ("## " ++ "b") ::
        ["```bash", "pwd", "```"]) :=
  empty_phase_elision ["## a", "```bash", "ls", "```"] "mt" ["```bash", "  ", "```"]
    "b" ["```bash", "pwd", "```"] (by decide) (by decide) (by decide)

/-- C8 (confirmed): dumping an existing project writes a JSON object whose
top level has exactly one key, the project name, mapped to the encoded
ProjectConfig, with no enclosing projects wrapper; the global encoding, by
contrast, always has the single top-level key projects. -/
theorem dump_shape (name : String) (cfg : Config) (proj : ProjectConfig)
    (h : lookupProj cfg.projects name = some proj) :
    dumpLocalJson name cfg = .ok (Json.obj [(name, encProjectConfig proj)]) ∧
    topKeys (Json.obj [(name, encProjectConfig proj)]) = [name] ∧
    (∀ c : Config, topKeys (encConfig c) = ["projects"]) := by
  refine ⟨?_, rfl, fun c => rfl⟩
  unfold dumpLocalJson
  rw [h]

/-- Witness for C8: dumping the project demo yields the single-key object. -/
theorem dump_shape_witness :
    dumpLocalJson "demo" ⟨[("demo", ⟨[]⟩)]⟩ =
      .ok (Json.obj [("demo", encProjectConfig ⟨[]⟩)]) ∧
    topKeys (Json.obj [("demo", encProjectConfig ⟨[]⟩)]) = ["demo"] ∧
    (∀ c : Config, topKeys (encConfig c) = ["projects"]) :=
  dump_shape "demo" ⟨[("demo", ⟨[]⟩)]⟩ ⟨[]⟩ (by decide)

/-- C9 (confirmed): loading the global configuration with the storage file
absent yields the empty Config and no error; a read failure propagates as an
error, and readable content is handed to the JSON decoder, whose verdict is
returned unchanged, so an error arises only when the file exists. -/
theorem load_absent_empty :
    (∀ u : String → Except String Config, loadConfig FileState.absent u = .ok ⟨[]⟩) ∧
    (∀ (m : String) (u : String → Except String Config),
      loadConfig (FileState.readError m) u = .error m) ∧
    (∀ (d : String) (u : String → Except String Config),
      loadConfig (FileState.content d) u = u d) :=
  ⟨fun _ => rfl, fun _ _ => rfl, fun _ _ => rfl⟩

/-- C10 (confirmed): when the requested phase name occurs more than once,
only the first matching phase in list order is executed; the result depends
only on that first match, so later phases with the same name never run. -/
theorem first_matching_phase_runs (pre : List Phase) (ph1 : Phase) (mid : List Phase)
    (ph2 : Phase) (post : List Phase) (t : String) (exec : String → Bool)
    (hpre : ∀ r ∈ pre, r.name ≠ t) (h1 : ph1.name = t) (_h2 : ph2.name = t) :
    runSpecific (pre ++ ph1 :: (mid ++ ph2 :: post)) t exec =
      (if exec (buildScript ph1) = true then ([ph1.name], RunOutcome.success)
       else ([ph1.name], RunOutcome.phaseFailed t)) := by
  rw [runSpecific_skips t exec pre hpre]
  simp [runSpecific, h1]

/-- Witness for C10: with two phases named b, only the first one's script
runs and the run succeeds. -/
theorem first_matching_phase_runs_witness :
    runSpecific [⟨"a", ["u"]⟩, ⟨"b", ["v"]⟩, ⟨"b", ["w"]⟩] "b" (fun _ => true) =
      (["b"], RunOutcome.success) :=
  first_matching_phase_runs [⟨"a", ["u"]⟩] ⟨"b", ["v"]⟩ [] ⟨"b", ["w"]⟩ [] "b"
    (fun _ => true) (by decide) rfl rfl
